import Mathlib

/-!
Verification development for `generate_compile_commands.py`, a tool that
derives a `compile_commands.json` compilation database from a Bazel action
graph.  The Python source is shallowly embedded below: pure functions become
Lean functions, Python string and `pathlib.PurePosixPath` operations are
modelled explicitly, exceptions (`IndexError`, `AssertionError`) become an
explicit error type, the on-disk file system is a parameter (the list of
existing paths), and the aliasing of Python list objects between entry
dictionaries is modelled with an explicit store of argument lists indexed by
references.
-/

namespace CompileCommands

/-! ### Generic list helpers (with simple equations, used by the embedding) -/

/-- Concatenation of the images of a function over a list. -/
def joinMap (f : α → List β) : List α → List β
  | [] => []
  | x :: xs => f x ++ joinMap f xs

/-- First `some` produced by `f` over the list, scanning left to right.
Models Python `next((... for x in xs if ...), None)`. -/
def firstSome? (f : α → Option β) : List α → Option β
  | [] => none
  | x :: xs =>
    match f x with
    | some y => some y
    | none => firstSome? f xs

/-- Effectful map over `Except`: stops at the first error.  Models a Python
list comprehension in which the body may raise. -/
def mapExcept (f : α → Except ε β) : List α → Except ε (List β)
  | [] => .ok []
  | x :: xs =>
    match f x with
    | .error e => .error e
    | .ok y =>
      match mapExcept f xs with
      | .error e => .error e
      | .ok ys => .ok (y :: ys)

/-- The last element of a list, if any. -/
def lastElem? : List α → Option α
  | [] => none
  | [x] => some x
  | _ :: y :: xs => lastElem? (y :: xs)

/-- Replace the element at an index, out-of-range indices unchanged. -/
def setIdx : List α → Nat → α → List α
  | [], _, _ => []
  | _ :: xs, 0, v => v :: xs
  | x :: xs, n + 1, v => x :: setIdx xs n v

/-- Element at an index with a default. -/
def getIdxD : List α → Nat → α → α
  | [], _, d => d
  | x :: _, 0, _ => x
  | _ :: xs, n + 1, d => getIdxD xs n d

/-- Pair every element with its index, starting at `n`. -/
def withIdx (n : Nat) : List α → List (Nat × α)
  | [] => []
  | x :: xs => (n, x) :: withIdx (n + 1) xs

/-! ### String helpers

Python string operations are modelled through `String.toList`, so that proofs
can reason about plain lists of characters.  Indices count characters, as
Python `len`/slicing do. -/

/-- Python `s.startswith(p)`: the first `p.length` characters of `s` are `p`. -/
def strStarts (s p : String) : Bool :=
  decide (s.toList.take p.toList.length = p.toList)

/-- Python `s[n:]`: drop the first `n` characters. -/
def strDrop (s : String) (n : Nat) : String :=
  String.mk (s.toList.drop n)

/-- Python `len(s)` (in characters). -/
def strLen (s : String) : Nat := s.toList.length

/-- Split a character list at a separator; mirrors Python `str.split(sep)`. -/
def chSplit (sep : Char) : List Char → List (List Char)
  | [] => [[]]
  | c :: cs =>
    let r := chSplit sep cs
    if c = sep then [] :: r
    else
      match r with
      | [] => [[c]]
      | h :: t => (c :: h) :: t

/-! ### `pathlib.PurePosixPath` model

A path is an absolute-flag plus the list of its nonempty, non-`.` components.
`parseStr` normalises exactly as `PurePosixPath(str)` does (repeated slashes
and single-dot components collapse).  Joining with an absolute right operand
discards the left operand, the pathlib behaviour that matters for
`rewrite_include`. -/

structure PurePath where
  absolute : Bool
  parts : List String
deriving DecidableEq, Repr

/-- `PurePosixPath(s)`. -/
def parseStr (s : String) : PurePath :=
  let cs := s.toList
  { absolute := decide (cs.head? = some '/'),
    parts := ((chSplit '/' cs).map (fun l => String.mk l)).filter
      (fun p => decide (p ≠ "") && decide (p ≠ ".")) }

/-- `os.fspath(p)` / `str(p)` for a `PurePosixPath`. -/
def joinParts : List String → String
  | [] => ""
  | [p] => p
  | p :: q :: rest => p ++ "/" ++ joinParts (q :: rest)

/-- `os.fspath(p)` / `str(p)`. -/
def fspath (p : PurePath) : String :=
  match p.parts with
  | [] => if p.absolute then "/" else "."
  | _ => (if p.absolute then "/" else "") ++ joinParts p.parts

/-- `p / s` for a string right operand: an absolute right operand replaces
the whole path (pathlib anchoring). -/
def pjoin (p : PurePath) (s : String) : PurePath :=
  let q := parseStr s
  if q.absolute then q else ⟨p.absolute, p.parts ++ q.parts⟩

/-- `p / q` for a path right operand. -/
def pjoinP (p q : PurePath) : PurePath :=
  if q.absolute then q else ⟨p.absolute, p.parts ++ q.parts⟩

/-- `p.name`: the final component, or `""` when there is none. -/
def pname (p : PurePath) : String :=
  (lastElem? p.parts).getD ""

/-- Index of the last `'.'` in a character list, if any. -/
def lastDotIdx (cs : List Char) : Option Nat :=
  lastElem? ((withIdx 0 cs).filter (fun ic => decide (ic.2 = '.'))) |>.map (fun ic => ic.1)

/-- The stem of a file name: the name with its pathlib suffix removed.
pathlib takes the suffix to start at the last dot `i` with `0 < i <
len(name) - 1`; otherwise the suffix is empty. -/
def pstem (nm : String) : String :=
  let cs := nm.toList
  match lastDotIdx cs with
  | some i => if 0 < i ∧ i < cs.length - 1 then String.mk (cs.take i) else nm
  | none => nm

/-- `p.with_suffix(suf)`: replace the suffix of the final component.  pathlib
raises on a path without a name; that case is unreachable in the modelled
flows and is mapped to the identity. -/
def withSuffix (p : PurePath) (suf : String) : PurePath :=
  match lastElem? p.parts with
  | none => p
  | some nm => ⟨p.absolute, p.parts.dropLast ++ [pstem nm ++ suf]⟩

/-! ### Constants and `rewrite_include` (from the source) -/

/-- `TEMPLATE_EXTENSIONS = [".inl", ".tcc"]`. -/
def TEMPLATE_EXTENSIONS : List String := [".inl", ".tcc"]

/-- `HEADER_EXTENSIONS = [".hh", ".hpp", ".h"]`. -/
def HEADER_EXTENSIONS : List String := [".hh", ".hpp", ".h"]

/-- `INCLUDE_FLAG = frozenset({"-I", "-iquote", "-isystem"})`.  A frozenset
of strings iterates in a hash-dependent order; the functions below take the
iteration order as a parameter and this list is the canonical one. -/
def INCLUDE_FLAG : List String := ["-I", "-iquote", "-isystem"]

/-- `rewrite_include(include, execroot_external, output_base)`. -/
def rewrite_include (inc : String) (execroot_external : String) (output_base : PurePath) : String :=
  let EXTERNAL := "external/"
  if strStarts inc execroot_external then
    fspath (pjoin (pjoin output_base "external") (strDrop inc (strLen execroot_external)))
  else if strStarts inc EXTERNAL then
    fspath (pjoin (pjoin output_base "external") (strDrop inc (strLen EXTERNAL)))
  else inc

/-! ### `process_action` (the Argument Rewriter)

The Python while-loop scans the argument vector left to right, mutating it in
place; the recursion below returns the rewritten vector together with the
accumulated source, output and include directives.  A read of
`arguments[index + 1]` past the end of the list raises `IndexError`; the two
`assert` statements raise `AssertionError`.  Both become constructors of
`PErr`. -/

inductive PErr where
  /-- Python `IndexError` (list index out of range). -/
  | indexError : PErr
  /-- `assert output is not None` failed. -/
  | assertOutput : PErr
  /-- `assert source is not None` failed. -/
  | assertSource : PErr
deriving DecidableEq, Repr

/-- One build action record (the `arguments` field of an aquery action). -/
structure BAction where
  arguments : List String
deriving DecidableEq, Repr

/-- State accumulated by the scan: latest source, latest output, and the
recorded include directives in order. -/
structure ScanAcc where
  src : Option String
  out : Option String
  incs : List (String × String)
deriving DecidableEq, Repr

/-- The fused-include decomposition: Python
`next(((flag, argument[len(flag):]) for flag in INCLUDE_FLAG if
argument.startswith(flag)), None)`, with the frozenset iteration order passed
in as `fo`. -/
def fusedSplit (fo : List String) (a : String) : Option (String × String) :=
  firstSome? (fun flag => if strStarts a flag then some (flag, strDrop a (strLen flag)) else none) fo

/-- The while-loop of `process_action`.  `fo` is the iteration order of the
`INCLUDE_FLAG` frozenset, `ws` the workspace, `ee` the `execroot_external`
string, `ob` the output base. -/
def scanLoop (fo : List String) (ws : PurePath) (ee : String) (ob : PurePath) :
    List String → Option String → Option String → List (String × String) →
    Except PErr (List String × ScanAcc)
  | [], src, out, incs => .ok ([], ⟨src, out, incs⟩)
  | a :: rest, src, out, incs =>
    if a = "-c" then
      match rest with
      | [] => .error .indexError
      | v :: rest2 =>
        match scanLoop fo ws ee ob rest2 (some v) out incs with
        | .error e => .error e
        | .ok (tl, acc) => .ok (a :: fspath (pjoin ws v) :: tl, acc)
    else if a = "-o" then
      match rest with
      | [] => .error .indexError
      | v :: rest2 =>
        match scanLoop fo ws ee ob rest2 src (some v) incs with
        | .error e => .error e
        | .ok (tl, acc) => .ok (a :: v :: tl, acc)
    else if a ∈ fo then
      match rest with
      | [] => .error .indexError
      | v :: rest2 =>
        let nv := rewrite_include v ee ob
        match scanLoop fo ws ee ob rest2 src out (incs ++ [(a, nv)]) with
        | .error e => .error e
        | .ok (tl, acc) => .ok (a :: nv :: tl, acc)
    else
      match fusedSplit fo a with
      | some fr =>
        match scanLoop fo ws ee ob rest src out (incs ++ [(fr.1, fr.2)]) with
        | .error e => .error e
        | .ok (tl, acc) => .ok ((fr.1 ++ rewrite_include fr.2 ee ob) :: tl, acc)
      | none =>
        match scanLoop fo ws ee ob rest src out incs with
        | .error e => .error e
        | .ok (tl, acc) => .ok (a :: tl, acc)

/-- The post-scan loop: for every recorded include directive whose directory
does not start with `/`, `bazel-` or `external/`, append the flag again with
the workspace-qualified directory.  `include_dir[0]` on an empty string
raises `IndexError`. -/
def appendLocalIncludes (ws : PurePath) :
    List (String × String) → List String → Except PErr (List String)
  | [], args => .ok args
  | (flag, d) :: rest, args =>
    match d.toList with
    | [] => .error .indexError
    | c :: _ =>
      if c ≠ '/' ∧ ¬ strStarts d "bazel-" ∧ ¬ strStarts d "external/" then
        appendLocalIncludes ws rest (args ++ [flag, fspath (pjoin ws d)])
      else
        appendLocalIncludes ws rest args

/-- One entry of the compilation database as `process_action` returns it. -/
structure RawEntry where
  directory : String
  file : String
  arguments : List String
  output : String
deriving DecidableEq, Repr

/-- `execroot = workspace / f"bazel-{workspace.name}"`. -/
def execrootOf (ws : PurePath) : PurePath :=
  pjoin ws ("bazel-" ++ pname ws)

/-- The final source resolution of `process_action`: try
`workspace / source`; if it does not exist on disk, use
`execroot / source` (without checking that it exists). -/
def resolveSource (ws : PurePath) (fs : List String) (source : String) : PurePath :=
  let sf := pjoin ws source
  if fspath sf ∈ fs then sf else pjoin (execrootOf ws) source

/-- `process_action(action, workspace, output_base)`.  `fs` is the set of
paths that exist on disk, `fo` the iteration order of `INCLUDE_FLAG`. -/
def process_action (fo : List String) (action : BAction) (workspace : PurePath)
    (output_base : PurePath) (fs : List String) : Except PErr RawEntry :=
  let execroot := execrootOf workspace
  let ee := fspath (pjoin execroot "external")
  match scanLoop fo workspace ee output_base action.arguments none none [] with
  | .error e => .error e
  | .ok (args1, acc) =>
    match acc.out with
    | none => .error .assertOutput
    | some output =>
      match acc.src with
      | none => .error .assertSource
      | some source =>
        match appendLocalIncludes workspace acc.incs args1 with
        | .error e => .error e
        | .ok args2 =>
          .ok ⟨fspath execroot, fspath (resolveSource workspace fs source), args2, output⟩

/-! ### The Database Assembler and Entry Synthesizer (from `main`)

Each entry dictionary holds its `arguments` list by reference: `Store` is the
heap of argument lists and `argsRef` an index into it.  `process_action`
creates a fresh list per entry (`list(arguments)`), but the synthesis loop
copies entry dictionaries with `dict(entry)` — a shallow copy that shares the
`arguments` list object — and then mutates that shared list with `extend`. -/

/-- The heap of Python list objects holding argument vectors. -/
abbrev Store := List (List String)

/-- An entry dictionary: `output = none` models a deleted `output` key. -/
structure StEntry where
  directory : String
  file : String
  argsRef : Nat
  output : Option String
deriving DecidableEq, Repr

/-- Read a store cell. -/
def storeGet (store : Store) (r : Nat) : List String :=
  getIdxD store r []

/-- Python `store_cell.extend(xs)`. -/
def storeExtend (store : Store) (r : Nat) (xs : List String) : Store :=
  setIdx store r (storeGet store r ++ xs)

/-- Allocate the entry dictionaries and their argument-list cells from the
`process_action` results: entry `i` references cell `i`. -/
def buildStEntries (raws : List RawEntry) : List StEntry × Store :=
  ((withIdx 0 raws).map (fun ir => ⟨ir.2.directory, ir.2.file, ir.1, some ir.2.output⟩),
   raws.map (fun r => r.arguments))

/-- Python dict insertion: an existing key keeps its position and gets the
new value, a new key is appended. -/
def dictInsert (d : List (PurePath × StEntry)) (k : PurePath) (v : StEntry) :
    List (PurePath × StEntry) :=
  if d.any (fun kv => kv.1 == k) then
    d.map (fun kv => if kv.1 == k then (k, v) else kv)
  else d ++ [(k, v)]

/-- `entries_by_filename = {Path(entry["file"]): entry for entry in entries}`. -/
def buildDict (es : List StEntry) : List (PurePath × StEntry) :=
  es.foldl (fun d e => dictInsert d (parseStr e.file) e) []

/-- Key membership in the dict. -/
def dictHasKey (d : List (PurePath × StEntry)) (k : PurePath) : Bool :=
  d.any (fun kv => kv.1 == k)

/-- `path.exists()` against the modelled file system. -/
def fexists (fs : List String) (p : PurePath) : Bool :=
  fspath p ∈ fs

/-- The header loop of the synthesizer: for the first header extension whose
sibling exists, extend the (shared) argument cell `r` with the forced
include, then break. -/
def headerScan (ws : PurePath) (fs : List String) (inl : PurePath) (r : Nat)
    (store : Store) : List String → Store
  | [] => store
  | he :: rest =>
    let header_file := withSuffix inl he
    if fexists fs (pjoinP ws header_file) then
      storeExtend store r ["-include", fspath header_file]
    else headerScan ws fs inl r store rest

/-- The body of the synthesis loop for one `(entry, template extension)`
pair: if the sibling template file exists and has no entry of its own,
append a shallow copy of the entry with `file` set to the sibling and the
`output` key deleted, running the header loop on the shared argument cell. -/
def synthOneExt (ws : PurePath) (fs : List String) (ebf : List (PurePath × StEntry))
    (st : Store × List StEntry) (fp : PurePath) (e : StEntry) (ext : String) :
    Store × List StEntry :=
  let inl := withSuffix fp ext
  if fexists fs (pjoinP ws inl) && !dictHasKey ebf inl then
    let store2 := headerScan ws fs inl e.argsRef st.1 HEADER_EXTENSIONS
    (store2, st.2 ++ [⟨e.directory, fspath inl, e.argsRef, none⟩])
  else st

/-- The inner loop over `TEMPLATE_EXTENSIONS`. -/
def synthExts (ws : PurePath) (fs : List String) (ebf : List (PurePath × StEntry))
    (fp : PurePath) (e : StEntry) :
    List String → Store × List StEntry → Store × List StEntry
  | [], st => st
  | ext :: rest, st => synthExts ws fs ebf fp e rest (synthOneExt ws fs ebf st fp e ext)

/-- The outer loop over `entries_by_filename.items()` (insertion order). -/
def synthLoop (ws : PurePath) (fs : List String) (ebf : List (PurePath × StEntry)) :
    List (PurePath × StEntry) → Store × List StEntry → Store × List StEntry
  | [], st => st
  | (fp, e) :: rest, st =>
    synthLoop ws fs ebf rest (synthExts ws fs ebf fp e TEMPLATE_EXTENSIONS st)

/-- Everything `main` does between a successful aquery and serialization:
run `process_action` over all actions (the list comprehension propagates the
first exception), key the entries by file name, and run the synthesis loop. -/
def assemble (fo : List String) (ws ob : PurePath) (fs : List String)
    (actions : List BAction) : Except PErr (Store × List StEntry) :=
  match mapExcept (fun a => process_action fo a ws ob fs) actions with
  | .error e => .error e
  | .ok raws =>
    let (entries, store) := buildStEntries raws
    let ebf := buildDict entries
    .ok (synthLoop ws fs ebf ebf (store, entries))

/-! ### Serialization

`json.dump` writes the entries in list order with each dictionary's keys in
insertion order (`directory`, `file`, `arguments`, and `output` when
present).  Whitespace and string escaping of `json.dump(..., indent=4)` are
not replicated; the serializer below is a fixed deterministic rendering of
the same data in the same order. -/

/-- Render a JSON string (escaping not modelled). -/
def jsonStr (s : String) : String := "\"" ++ s ++ "\""

/-- Comma-separate rendered items. -/
def commaSep : List String → String
  | [] => ""
  | [x] => x
  | x :: y :: rest => x ++ ", " ++ commaSep (y :: rest)

/-- Render a JSON array. -/
def jsonList (xs : List String) : String := "[" ++ commaSep xs ++ "]"

/-- Render one entry, resolving its argument-list reference in the store. -/
def serializeEntry (store : Store) (e : StEntry) : String :=
  "\x7b" ++ jsonStr "directory" ++ ": " ++ jsonStr e.directory ++ ", " ++
    jsonStr "file" ++ ": " ++ jsonStr e.file ++ ", " ++
    jsonStr "arguments" ++ ": " ++ jsonList ((storeGet store e.argsRef).map jsonStr) ++
    (match e.output with
     | some o => ", " ++ jsonStr "output" ++ ": " ++ jsonStr o
     | none => "") ++ "\x7d"

/-- Render the whole database. -/
def serializeDB (store : Store) (es : List StEntry) : String :=
  jsonList (es.map (serializeEntry store))

/-! ### `main` -/

/-- The observable outcome of one run. -/
inductive MainOutcome where
  /-- `sys.exit(code)` before anything is written. -/
  | exited (code : Int) : MainOutcome
  /-- An uncaught exception; nothing is written. -/
  | raised (e : PErr) : MainOutcome
  /-- The database file was written with `content`; process exit code. -/
  | written (content : String) (code : Int) : MainOutcome
deriving DecidableEq, Repr

/-- `main`, from the aquery result on: `rc` is the aquery returncode and
`actionsField` the optional top-level `actions` field of the parsed JSON
(`action_graph.get("actions", [])` supplies `[]` when absent).  Workspace
discovery, the aquery invocation itself and `bazel info output_base` are the
external collaborators and enter as parameters. -/
def mainModel (fo : List String) (ws ob : PurePath) (fs : List String)
    (rc : Int) (actionsField : Option (List BAction)) : MainOutcome :=
  if rc ≠ 0 then .exited rc
  else
    match assemble fo ws ob fs (actionsField.getD []) with
    | .error e => .raised e
    | .ok (store, entries) => .written (serializeDB store entries) 0

/-! ### Spec-side definitions used to state the claims -/

/-- A recorded include directory is local to the workspace: nonempty, not
absolute, not under a build-output directory (`bazel-` prefix), not an
external-dependency path (`external/` prefix). -/
def localInclude (d : String) : Bool :=
  match d.toList with
  | [] => false
  | c :: _ => decide (c ≠ '/') && !strStarts d "bazel-" && !strStarts d "external/"

/-- The duplicate appended for one recorded include directive: the same flag
with the workspace-qualified directory for a local directive, nothing
otherwise. -/
def includeDup (ws : PurePath) (fd : String × String) : List String :=
  if localInclude fd.2 then [fd.1, fspath (pjoin ws fd.2)] else []

/-- The standalone flag tokens after which the scan reads `index + 1`. -/
def ALL_FLAGS : List String := "-c" :: "-o" :: INCLUDE_FLAG

/-- One parsed unit of a well-formed argument vector: either a standalone
flag with the value it consumes, or a single argument that is not a
standalone flag token. -/
inductive Chunk where
  | flagged (flag value : String) : Chunk
  | plain (arg : String) : Chunk
deriving DecidableEq, Repr

/-- The argument-vector fragment a chunk denotes. -/
def Chunk.toArgs : Chunk → List String
  | .flagged f v => [f, v]
  | .plain a => [a]

/-- Chunk well-formedness: a flagged chunk carries a standalone flag token,
a plain chunk does not equal one. -/
def Chunk.wf : Chunk → Prop
  | .flagged f _ => f ∈ ALL_FLAGS
  | .plain a => a ∉ ALL_FLAGS

instance (c : Chunk) : Decidable c.wf :=
  match c with
  | .flagged f _ => inferInstanceAs (Decidable (f ∈ ALL_FLAGS))
  | .plain a => inferInstanceAs (Decidable (a ∉ ALL_FLAGS))

/-- Include-flag chunks carry a nonempty value (part of well-formedness:
an empty include value would crash the post-scan duplication loop). -/
def Chunk.incOk : Chunk → Prop
  | .flagged f v => f ∈ INCLUDE_FLAG → v ≠ ""
  | .plain _ => True

instance (c : Chunk) : Decidable c.incOk :=
  match c with
  | .flagged f v => inferInstanceAs (Decidable (f ∈ INCLUDE_FLAG → v ≠ ""))
  | .plain _ => inferInstanceAs (Decidable True)

/-- Is this a flagged chunk for flag `g`? -/
def isFlagChunk (g : String) : Chunk → Bool
  | .flagged f _ => f == g
  | .plain _ => false

/-- The effect of one chunk on the latest value recorded for flag `g`. -/
def updFlag (g : String) (s : Option String) : Chunk → Option String
  | .flagged f v => if f = g then some v else s
  | .plain _ => s

/-- What the scan turns one chunk into: the `-c` value is rewritten to its
workspace-qualified form, the `-o` value is untouched, include values are
rewritten via `rewrite_include`, fused include arguments are split,
rewritten and reassembled, and anything else passes through. -/
def chunkRewrite (ws : PurePath) (ee : String) (ob : PurePath) : Chunk → List String
  | .flagged f v =>
    if f = "-c" then [f, fspath (pjoin ws v)]
    else if f = "-o" then [f, v]
    else [f, rewrite_include v ee ob]
  | .plain a =>
    match fusedSplit INCLUDE_FLAG a with
    | some fr => [fr.1 ++ rewrite_include fr.2 ee ob]
    | none => [a]

/-- The include directives one chunk records: the rewritten value for a
standalone include flag, the original path portion for a fused one. -/
def chunkIncs (ee : String) (ob : PurePath) : Chunk → List (String × String)
  | .flagged f v =>
    if f = "-c" then [] else if f = "-o" then [] else [(f, rewrite_include v ee ob)]
  | .plain a =>
    match fusedSplit INCLUDE_FLAG a with
    | some fr => [(fr.1, fr.2)]
    | none => []

/-! ### Basic lemmas -/

theorem toList_nil_imp (s : String) (h : s.toList = []) : s = "" := by
  cases s with
  | mk data =>
    have hd : data = [] := h
    subst hd
    rfl

theorem mapExcept_error_of_mem (f : α → Except ε β) {l : List α} {a : α} {e : ε}
    (ha : a ∈ l) (hf : f a = .error e) : ∃ e2, mapExcept f l = .error e2 := by
  induction l with
  | nil => cases ha
  | cons x xs ih =>
    simp only [mapExcept]
    cases hx : f x with
    | error e3 => exact ⟨e3, rfl⟩
    | ok y =>
      rcases List.mem_cons.mp ha with rfl | hmem
      · rw [hx] at hf; cases hf
      · obtain ⟨e2, h2⟩ := ih hmem
        rw [h2]
        exact ⟨e2, rfl⟩

/-! ### Claim C1 — external-include rewriting -/

/-- C1 (code_bug): the claim says both the bare `external/` prefix and the
execution-root-qualified `<execRoot>/external/` prefix are rewritten to a
path rooted at `<outputBase>/external/<remainder>`.  The code strips the
qualified prefix without its trailing slash, so the remainder keeps a
leading `/`; joining a `PurePosixPath` with an absolute string discards the
left operand, and the result is the bare remainder instead of a path rooted
at the output base.  At workspace `/ws` and output base `/ob`, the qualified
form of `external/foo` rewrites to `/foo` while the bare form rewrites to
`/ob/external/foo`. -/
theorem rewrite_include_execroot_prefix_divergence :
    rewrite_include "/ws/bazel-ws/external/foo" "/ws/bazel-ws/external" (parseStr "/ob") = "/foo" ∧
    rewrite_include "external/foo" "/ws/bazel-ws/external" (parseStr "/ob") = "/ob/external/foo" ∧
    ("/foo" : String) ≠ "/ob/external/foo" :=
  ⟨rfl, rfl, by decide⟩

/-! ### Claim C2 — synthetic entries share their parent's argument list -/

/-- C2 (code_bug): the claim (and the spec) require every synthetic entry's
argument sequence to be an independent copy of the primary's.  The code
copies the entry with `dict(entry)`, a shallow copy, so the synthetic entry's
`arguments` is the same list object as the primary's (`argsRef` 0 for both
below), and extending it with the forced include also changes the primary
entry's arguments: after synthesis the shared cell ends in
`-include /ws/src/foo.hpp`, no longer the primary's original argument
list. -/
theorem synthetic_entry_mutates_primary :
    assemble INCLUDE_FLAG (parseStr "/ws") (parseStr "/ob")
        ["/ws/src/foo.cpp", "/ws/src/foo.inl", "/ws/src/foo.hpp"]
        [⟨["-c", "src/foo.cpp", "-o", "foo.o"]⟩] =
      .ok ([["-c", "/ws/src/foo.cpp", "-o", "foo.o", "-include", "/ws/src/foo.hpp"]],
        [⟨"/ws/bazel-ws", "/ws/src/foo.cpp", 0, some "foo.o"⟩,
         ⟨"/ws/bazel-ws", "/ws/src/foo.inl", 0, none⟩]) ∧
    storeGet [["-c", "/ws/src/foo.cpp", "-o", "foo.o", "-include", "/ws/src/foo.hpp"]] 0 ≠
      ["-c", "/ws/src/foo.cpp", "-o", "foo.o"] :=
  ⟨rfl, by decide⟩

/-! ### Claim C3 — a malformed action aborts the whole run -/

/-- C3 (counterexample): the claim says an action lacking `-c` or `-o` is
skipped and every well-formed action elsewhere in the batch still appears in
the final database.  With a malformed first action (no `-o`) and a
well-formed second action, the run dies with an uncaught `AssertionError`
and nothing at all is written. -/
theorem malformed_action_fatal_cex :
    mainModel INCLUDE_FLAG (parseStr "/ws") (parseStr "/ob") ["/ws/a.c"] 0
        (some [⟨["-c", "x.c"]⟩, ⟨["-c", "a.c", "-o", "a.o"]⟩]) = .raised .assertOutput ∧
    (process_action INCLUDE_FLAG ⟨["-c", "a.c", "-o", "a.o"]⟩ (parseStr "/ws") (parseStr "/ob")
        ["/ws/a.c"]).isOk = true :=
  ⟨rfl, rfl⟩

/-- C3 (amended): an action lacking a `-c` or `-o` flag is fatal, not
non-fatal: `process_action` raises an uncaught `AssertionError`
(`IndexError` for other malformations), the list comprehension in `main`
propagates the first such exception, the whole run aborts and no database is
written, so no other action of the batch appears in any output. -/
theorem malformed_action_aborts_run (fo : List String) (ws ob : PurePath) (fs : List String)
    (actions : List BAction) (a : BAction) (e : PErr)
    (ha : a ∈ actions) (he : process_action fo a ws ob fs = .error e) :
    ∃ e2, mainModel fo ws ob fs 0 (some actions) = .raised e2 := by
  obtain ⟨e2, h2⟩ := mapExcept_error_of_mem (fun a => process_action fo a ws ob fs) ha he
  refine ⟨e2, ?_⟩
  simp [mainModel, assemble, h2]

/-- Witness for `malformed_action_aborts_run` at a concrete batch. -/
theorem malformed_action_aborts_run_witness :
    ∃ e2, mainModel INCLUDE_FLAG (parseStr "/ws") (parseStr "/ob") ["/ws/a.c"] 0
        (some [⟨["-c", "a.c", "-o", "a.o"]⟩, ⟨["-c", "x.c"]⟩]) = .raised e2 :=
  malformed_action_aborts_run INCLUDE_FLAG (parseStr "/ws") (parseStr "/ob") ["/ws/a.c"]
    [⟨["-c", "a.c", "-o", "a.o"]⟩, ⟨["-c", "x.c"]⟩] ⟨["-c", "x.c"]⟩ .assertOutput
    (by simp) rfl

/-! ### Claim C4 — source resolution never fails -/

/-- C4 (counterexample): the claim says an action whose source exists at
neither `<workspace>/<path>` nor `<execRoot>/<path>` fails with
`SourceNotFound`, so every `file` in the database exists on disk.  With an
empty file system, the action still succeeds and its `file` is the
(nonexistent) execroot path. -/
theorem missing_source_no_failure_cex :
    process_action INCLUDE_FLAG ⟨["-c", "a.c", "-o", "a.o"]⟩ (parseStr "/ws") (parseStr "/ob") [] =
      .ok ⟨"/ws/bazel-ws", "/ws/bazel-ws/a.c", ["-c", "/ws/a.c", "-o", "a.o"], "a.o"⟩ ∧
    fexists [] (parseStr "/ws/bazel-ws/a.c") = false :=
  ⟨rfl, rfl⟩

/-- C4 (amended): the entry's `file` is resolved by trying
`<workspace>/<path>` first and falling back to `<execRoot>/<path>`
unconditionally — the fallback's existence is never checked, there is no
`SourceNotFound` failure, and `file` paths in the database need not exist on
disk. -/
theorem source_resolution_fallback (fo : List String) (act : BAction) (ws ob : PurePath)
    (fs : List String) (e : RawEntry)
    (h : process_action fo act ws ob fs = .ok e) :
    ∃ source, e.file = fspath (resolveSource ws fs source) ∧
      (fexists fs (pjoin ws source) = true → resolveSource ws fs source = pjoin ws source) ∧
      (fexists fs (pjoin ws source) = false →
        resolveSource ws fs source = pjoin (execrootOf ws) source) := by
  simp only [process_action] at h
  rcases hs : scanLoop fo ws (fspath (pjoin (execrootOf ws) "external")) ob act.arguments
      none none [] with e2 | ⟨args1, asrc, aout, aincs⟩ <;> rw [hs] at h
  · simp at h
  rcases aout with _ | output
  · simp at h
  rcases asrc with _ | source
  · simp at h
  rcases happ : appendLocalIncludes ws aincs args1 with e2 | args2 <;> simp [happ] at h
  refine ⟨source, ?_, ?_, ?_⟩
  · rw [← h]
  · intro hex
    unfold resolveSource
    rw [if_pos (of_decide_eq_true hex)]
  · intro hex
    unfold resolveSource
    rw [if_neg (of_decide_eq_false hex)]

/-- Witness for `source_resolution_fallback` at a concrete action. -/
theorem source_resolution_fallback_witness :
    ∃ source,
      ("/ws/bazel-ws/a.c" : String) = fspath (resolveSource (parseStr "/ws") [] source) ∧
      (fexists [] (pjoin (parseStr "/ws") source) = true →
        resolveSource (parseStr "/ws") [] source = pjoin (parseStr "/ws") source) ∧
      (fexists [] (pjoin (parseStr "/ws") source) = false →
        resolveSource (parseStr "/ws") [] source = pjoin (execrootOf (parseStr "/ws")) source) :=
  source_resolution_fallback INCLUDE_FLAG ⟨["-c", "a.c", "-o", "a.o"]⟩ (parseStr "/ws")
    (parseStr "/ob") [] ⟨"/ws/bazel-ws", "/ws/bazel-ws/a.c", ["-c", "/ws/a.c", "-o", "a.o"], "a.o"⟩
    rfl

/-! ### Claim C8 — provider failure versus an absent `actions` field -/

/-- C8 (counterexample): the claim says an absent top-level `actions` field
aborts the run with the provider's exit status and no output file is
written.  With exit status 0 and no `actions` field, the code instead treats
the field as an empty list, writes an empty database and exits 0. -/
theorem absent_actions_written_cex :
    mainModel INCLUDE_FLAG (parseStr "/ws") (parseStr "/ob") [] 0 none =
      .written "[]" 0 :=
  rfl

/-- C8 (amended): a non-zero provider exit status aborts the run with that
status and nothing is written; an absent `actions` field is not an error —
`action_graph.get("actions", [])` substitutes an empty list, an empty
database is written, and the process exits 0. -/
theorem provider_failure_behavior (fo : List String) (ws ob : PurePath) (fs : List String)
    (rc : Int) (af : Option (List BAction)) :
    mainModel fo ws ob fs rc af =
      (if rc = 0 then mainModel fo ws ob fs 0 (some (af.getD [])) else .exited rc) ∧
    mainModel fo ws ob fs 0 none = .written "[]" 0 := by
  constructor
  · by_cases hrc : rc = 0 <;> simp [mainModel, hrc]
  · rfl

/-! ### Claim C7 — duplication of local-workspace include directives -/

/-- C7 (counterexample): the claim says every recorded include directive
whose path is local (not absolute, not build-output, not external) gets a
workspace-qualified duplicate appended.  The empty string is local in that
sense, but `include_dir[0]` raises `IndexError` on it, so the action with
recorded include `("-I", "")` produces no entry and no duplicate at all. -/
theorem empty_include_dir_cex :
    process_action INCLUDE_FLAG ⟨["-c", "a.c", "-o", "a.o", "-I", ""]⟩ (parseStr "/ws")
      (parseStr "/ob") ["/ws/a.c"] = .error .indexError :=
  rfl

/-- Characterization of the post-scan duplication loop on nonempty recorded
paths (shared helper). -/
theorem appendLocal_spec (ws : PurePath) (incs : List (String × String))
    (args : List String) (hne : ∀ fd ∈ incs, fd.2 ≠ "") :
    appendLocalIncludes ws incs args = .ok (args ++ joinMap (includeDup ws) incs) := by
  induction incs generalizing args with
  | nil => simp [appendLocalIncludes, joinMap]
  | cons fd rest ih =>
    obtain ⟨flag, d⟩ := fd
    have hd : d ≠ "" := hne (flag, d) (List.mem_cons_self _ _)
    have hrest : ∀ fd ∈ rest, fd.2 ≠ "" := fun fd hm => hne fd (List.mem_cons_of_mem _ hm)
    rcases hdl : d.toList with _ | ⟨c, cs⟩
    · exact absurd (toList_nil_imp d hdl) hd
    have hloc : localInclude d =
        (decide (c ≠ '/') && !strStarts d "bazel-" && !strStarts d "external/") := by
      unfold localInclude
      rw [hdl]
    simp only [appendLocalIncludes, hdl]
    by_cases h1 : c ≠ '/' ∧ ¬ strStarts d "bazel-" ∧ ¬ strStarts d "external/"
    · rw [if_pos h1, ih _ hrest]
      obtain ⟨h1a, h1b, h1c⟩ := h1
      simp only [Bool.not_eq_true] at h1b h1c
      simp [joinMap, includeDup, hloc, h1a, h1b, h1c]
    · rw [if_neg h1, ih _ hrest]
      have hfalse : localInclude d = false := by
        rw [hloc]
        by_contra hcon
        simp only [Bool.not_eq_false, Bool.and_eq_true, Bool.not_eq_true',
          decide_eq_true_eq] at hcon
        exact h1 ⟨hcon.1.1, by simp [hcon.1.2], by simp [hcon.2]⟩
      simp [joinMap, includeDup, hfalse]

/-- C7 (amended): for every recorded include directive with a nonempty
path, the post-scan loop appends the flag again with the workspace-qualified
directory exactly when the path is local (first character not `/`, no
`bazel-` prefix, no `external/` prefix), and appends nothing for absolute,
build-output or external paths; an empty recorded path raises `IndexError`
instead. -/
theorem local_include_duplication (ws : PurePath) (incs : List (String × String))
    (args : List String) (hne : ∀ fd ∈ incs, fd.2 ≠ "") :
    appendLocalIncludes ws incs args = .ok (args ++ joinMap (includeDup ws) incs) :=
  appendLocal_spec ws incs args hne

/-- Witness for `local_include_duplication`: a local, an absolute, a
build-output and an external include directive. -/
theorem local_include_duplication_witness :
    appendLocalIncludes (parseStr "/ws")
        [("-I", "src/inc"), ("-I", "/abs/inc"), ("-iquote", "bazel-out/k8"),
         ("-isystem", "external/dep")] ["cc"] =
      .ok (["cc"] ++ joinMap (includeDup (parseStr "/ws"))
        [("-I", "src/inc"), ("-I", "/abs/inc"), ("-iquote", "bazel-out/k8"),
         ("-isystem", "external/dep")]) :=
  local_include_duplication (parseStr "/ws") _ ["cc"] (by decide)

/-! ### Claim C10 — totality of the argument scan -/

/-- C10 (counterexample): the claim says the scan is total *exactly* when no
standalone flag token is the final element.  The vector `["-o", "-c"]` ends
in the flag token `-c`, yet the scan is total: the final `-c` is consumed as
the value of the preceding `-o` and `index + 1` is never read out of
bounds. -/
theorem trailing_flag_total_cex :
    scanLoop INCLUDE_FLAG (parseStr "/ws") "/ws/bazel-ws/external" (parseStr "/ob")
        ["-o", "-c"] none none [] = .ok (["-o", "-c"], ⟨none, some "-c", []⟩) ∧
    "-c" ∈ ALL_FLAGS ∧ lastElem? ["-o", "-c"] = some "-c" :=
  ⟨rfl, by decide, rfl⟩

/-- Dropping the head preserves "no flag token is the last element". -/
theorem last_tail1 {a : String} {rest : List String}
    (h : ∀ f ∈ ALL_FLAGS, lastElem? (a :: rest) ≠ some f) :
    ∀ f ∈ ALL_FLAGS, lastElem? rest ≠ some f := by
  intro f hf
  cases rest with
  | nil => simp [lastElem?]
  | cons b l => exact h f hf

/-- C10 (amended): the scan reads `arguments[index + 1]` unguarded after
each standalone flag token, and it is total *if* no standalone flag token is
the final element of the argument vector.  The converse direction of the
claim is false (see the counterexample): a final flag token consumed as the
value of a preceding flag does not index out of bounds. -/
theorem scan_total_of_last_not_flag (ws : PurePath) (ee : String) (ob : PurePath)
    (args : List String) (h : ∀ f ∈ ALL_FLAGS, lastElem? args ≠ some f)
    (src out : Option String) (incs : List (String × String)) :
    ∃ r, scanLoop INCLUDE_FLAG ws ee ob args src out incs = .ok r := by
  have main : ∀ n (args : List String), args.length ≤ n →
      (∀ f ∈ ALL_FLAGS, lastElem? args ≠ some f) →
      ∀ src out incs, ∃ r, scanLoop INCLUDE_FLAG ws ee ob args src out incs = .ok r := by
    intro n
    induction n with
    | zero =>
      intro args hlen _ src out incs
      have hnil : args = [] := List.length_eq_zero.mp (Nat.le_zero.mp hlen)
      subst hnil
      exact ⟨([], ⟨src, out, incs⟩), rfl⟩
    | succ n ih =>
      intro args hlen hlast src out incs
      match args with
      | [] => exact ⟨([], ⟨src, out, incs⟩), rfl⟩
      | a :: rest =>
        by_cases hc : a = "-c"
        · subst hc
          cases rest with
          | nil => exact absurd rfl (hlast "-c" (by decide))
          | cons v rest2 =>
            obtain ⟨r, hr⟩ := ih rest2 (by simp at hlen ⊢; omega)
              (last_tail1 (last_tail1 hlast)) (some v) out incs
            exact ⟨("-c" :: fspath (pjoin ws v) :: r.1, r.2), by simp [scanLoop, hr]⟩
        by_cases ho : a = "-o"
        · subst ho
          cases rest with
          | nil => exact absurd rfl (hlast "-o" (by decide))
          | cons v rest2 =>
            obtain ⟨r, hr⟩ := ih rest2 (by simp at hlen ⊢; omega)
              (last_tail1 (last_tail1 hlast)) src (some v) incs
            exact ⟨("-o" :: v :: r.1, r.2), by simp [scanLoop, hc, hr]⟩
        by_cases hI : a ∈ INCLUDE_FLAG
        · have haf : a ∈ ALL_FLAGS :=
            List.mem_cons_of_mem _ (List.mem_cons_of_mem _ hI)
          cases rest with
          | nil => exact absurd rfl (hlast a haf)
          | cons v rest2 =>
            obtain ⟨r, hr⟩ := ih rest2 (by simp at hlen ⊢; omega)
              (last_tail1 (last_tail1 hlast)) src out
              (incs ++ [(a, rewrite_include v ee ob)])
            exact ⟨(a :: rewrite_include v ee ob :: r.1, r.2),
              by simp [scanLoop, hc, ho, hI, hr]⟩
        · rcases hfs : fusedSplit INCLUDE_FLAG a with _ | fr
          · obtain ⟨r, hr⟩ := ih rest (by simp at hlen ⊢; omega)
              (last_tail1 hlast) src out incs
            refine ⟨(a :: r.1, r.2), ?_⟩
            rw [scanLoop.eq_def]
            simp only [if_neg hc, if_neg ho, if_neg hI, hfs, hr]
          · obtain ⟨r, hr⟩ := ih rest (by simp at hlen ⊢; omega)
              (last_tail1 hlast) src out (incs ++ [(fr.1, fr.2)])
            refine ⟨((fr.1 ++ rewrite_include fr.2 ee ob) :: r.1, r.2), ?_⟩
            rw [scanLoop.eq_def]
            simp only [if_neg hc, if_neg ho, if_neg hI, hfs, hr]
  exact main args.length args (Nat.le_refl _) h src out incs

/-- Witness for `scan_total_of_last_not_flag` at a concrete vector whose
final element is not a flag token. -/
theorem scan_total_of_last_not_flag_witness :
    ∃ r, scanLoop INCLUDE_FLAG (parseStr "/ws") "/ws/bazel-ws/external" (parseStr "/ob")
        ["clang", "-c", "a.c", "-o", "a.o", "-I", "inc", "x"] none none [] = .ok r :=
  scan_total_of_last_not_flag (parseStr "/ws") "/ws/bazel-ws/external" (parseStr "/ob")
    ["clang", "-c", "a.c", "-o", "a.o", "-I", "inc", "x"] (by decide) none none []

/-! ### Claim C6 — synthetic entries for template-implementation files -/

/-- The header loop equals a first-match search over `HEADER_EXTENSIONS` in
priority order: the argument cell is extended with the forced include of the
first sibling header that exists, and is untouched when none exists. -/
theorem headerScan_eq (ws : PurePath) (fs : List String) (inl : PurePath) (r : Nat)
    (store : Store) (l : List String) :
    headerScan ws fs inl r store l =
      match l.find? (fun he => fexists fs (pjoinP ws (withSuffix inl he))) with
      | some he => storeExtend store r ["-include", fspath (withSuffix inl he)]
      | none => store := by
  induction l with
  | nil => rfl
  | cons he rest ih =>
    simp only [headerScan]
    by_cases h : fexists fs (pjoinP ws (withSuffix inl he)) = true
    · have hf : List.find? (fun x => fexists fs (pjoinP ws (withSuffix inl x))) (he :: rest)
          = some he := by simp [List.find?, h]
      rw [if_pos h, hf]
    · have hf : List.find? (fun x => fexists fs (pjoinP ws (withSuffix inl x))) (he :: rest)
          = List.find? (fun x => fexists fs (pjoinP ws (withSuffix inl x))) rest := by
        simp [List.find?, h]
      rw [if_neg h, ih, hf]

/-- C6: for a primary entry whose source file has an existing sibling with a
template-implementation extension that has no entry of its own, the
synthesis-loop body appends exactly one synthetic entry for that extension:
its `file` is the sibling path, it has no `output` field, it copies
`directory` and the argument list (by reference), and the header extensions
are scanned in the fixed priority order `.hh`, `.hpp`, `.h`, appending one
forced-include flag naming the first sibling header that exists (and nothing
when none exists). -/
theorem synthesizer_one_entry_per_extension (ws : PurePath) (fs : List String)
    (ebf : List (PurePath × StEntry)) (store : Store) (entries : List StEntry)
    (fp : PurePath) (e : StEntry) (ext : String)
    (hex : fexists fs (pjoinP ws (withSuffix fp ext)) = true)
    (hnk : dictHasKey ebf (withSuffix fp ext) = false) :
    synthOneExt ws fs ebf (store, entries) fp e ext =
      ((match HEADER_EXTENSIONS.find?
          (fun he => fexists fs (pjoinP ws (withSuffix (withSuffix fp ext) he))) with
        | some he => storeExtend store e.argsRef
            ["-include", fspath (withSuffix (withSuffix fp ext) he)]
        | none => store),
       entries ++ [⟨e.directory, fspath (withSuffix fp ext), e.argsRef, none⟩]) := by
  simp only [synthOneExt, hex, hnk, Bool.not_false, Bool.and_true, if_true]
  rw [headerScan_eq]

/-- Witness for `synthesizer_one_entry_per_extension`: `foo.cpp` with
siblings `foo.inl` and `foo.hpp` on disk (`foo.hh` absent, so `.hpp` is the
first match in priority order). -/
theorem synthesizer_one_entry_per_extension_witness :
    synthOneExt (parseStr "/ws") ["/ws/src/foo.cpp", "/ws/src/foo.inl", "/ws/src/foo.hpp"]
        [(parseStr "/ws/src/foo.cpp", ⟨"/ws/bazel-ws", "/ws/src/foo.cpp", 0, some "foo.o"⟩)]
        ([["-c", "/ws/src/foo.cpp", "-o", "foo.o"]],
         [⟨"/ws/bazel-ws", "/ws/src/foo.cpp", 0, some "foo.o"⟩])
        (parseStr "/ws/src/foo.cpp") ⟨"/ws/bazel-ws", "/ws/src/foo.cpp", 0, some "foo.o"⟩
        ".inl" =
      ((match HEADER_EXTENSIONS.find?
          (fun he => fexists ["/ws/src/foo.cpp", "/ws/src/foo.inl", "/ws/src/foo.hpp"]
            (pjoinP (parseStr "/ws")
              (withSuffix (withSuffix (parseStr "/ws/src/foo.cpp") ".inl") he))) with
        | some he => storeExtend [["-c", "/ws/src/foo.cpp", "-o", "foo.o"]] 0
            ["-include", fspath (withSuffix (withSuffix (parseStr "/ws/src/foo.cpp") ".inl") he)]
        | none => [["-c", "/ws/src/foo.cpp", "-o", "foo.o"]]),
       [⟨"/ws/bazel-ws", "/ws/src/foo.cpp", 0, some "foo.o"⟩] ++
         [⟨"/ws/bazel-ws", fspath (withSuffix (parseStr "/ws/src/foo.cpp") ".inl"), 0, none⟩]) :=
  synthesizer_one_entry_per_extension (parseStr "/ws")
    ["/ws/src/foo.cpp", "/ws/src/foo.inl", "/ws/src/foo.hpp"]
    [(parseStr "/ws/src/foo.cpp", ⟨"/ws/bazel-ws", "/ws/src/foo.cpp", 0, some "foo.o"⟩)]
    [["-c", "/ws/src/foo.cpp", "-o", "foo.o"]]
    [⟨"/ws/bazel-ws", "/ws/src/foo.cpp", 0, some "foo.o"⟩]
    (parseStr "/ws/src/foo.cpp") ⟨"/ws/bazel-ws", "/ws/src/foo.cpp", 0, some "foo.o"⟩
    ".inl" rfl rfl

/-! ### String and path non-emptiness lemmas -/

theorem strData_append (s t : String) : (s ++ t).data = s.data ++ t.data := rfl

theorem str_ne_empty_of_data {s : String} (h : s.data ≠ []) : s ≠ "" := by
  intro he
  subst he
  exact h rfl

theorem toList_inj {s t : String} (h : s.toList = t.toList) : s = t := by
  cases s with
  | mk d1 =>
    cases t with
    | mk d2 =>
      have : d1 = d2 := h
      rw [this]

theorem joinParts_ne_empty_of_mem {l : List String} {x : String} (hx : x ∈ l) (hxe : x ≠ "") :
    joinParts l ≠ "" := by
  induction l with
  | nil => cases hx
  | cons p rest ih =>
    cases rest with
    | nil =>
      rcases List.mem_singleton.mp hx with rfl
      exact hxe
    | cons q rest2 =>
      apply str_ne_empty_of_data
      rw [show joinParts (p :: q :: rest2) = p ++ "/" ++ joinParts (q :: rest2) from rfl]
      rw [strData_append, strData_append]
      simp

theorem fspath_ne_empty_of_abs {p : PurePath} (h : p.absolute = true) : fspath p ≠ "" := by
  unfold fspath
  cases hp : p.parts with
  | nil => rw [h]; decide
  | cons a rest =>
    rw [h]
    apply str_ne_empty_of_data
    rw [show (if true = true then "/" else "") = "/" from rfl, strData_append]
    simp

theorem fspath_ne_empty_of_mem {p : PurePath} (x : String) (hx : x ∈ p.parts) (hxe : x ≠ "") :
    fspath p ≠ "" := by
  cases ha : p.absolute with
  | true => exact fspath_ne_empty_of_abs ha
  | false =>
    unfold fspath
    cases hp : p.parts with
    | nil => rw [hp] at hx; cases hx
    | cons a rest =>
      rw [ha]
      rw [show (if false = true then "/" else "") = "" from rfl]
      have : ("" : String) ++ joinParts (a :: rest) = joinParts (a :: rest) := rfl
      rw [this]
      rw [hp] at hx
      exact joinParts_ne_empty_of_mem hx hxe

theorem pjoin_parts_external (ob : PurePath) :
    pjoin ob "external" = ⟨ob.absolute, ob.parts ++ ["external"]⟩ := rfl

theorem fspath_pjoin_external_ne (ob : PurePath) (s : String) :
    fspath (pjoin (pjoin ob "external") s) ≠ "" := by
  rw [pjoin_parts_external]
  unfold pjoin
  by_cases ha : (parseStr s).absolute = true
  · rw [if_pos ha]
    exact fspath_ne_empty_of_abs ha
  · rw [if_neg ha]
    refine fspath_ne_empty_of_mem "external" ?_ (by decide)
    simp

theorem rewrite_include_ne_empty {v : String} (ee : String) (ob : PurePath) (hv : v ≠ "") :
    rewrite_include v ee ob ≠ "" := by
  unfold rewrite_include
  by_cases h1 : strStarts v ee = true
  · rw [if_pos h1]
    exact fspath_pjoin_external_ne ob _
  · rw [if_neg h1]
    by_cases h2 : strStarts v "external/" = true
    · rw [if_pos h2]
      exact fspath_pjoin_external_ne ob _
    · rw [if_neg h2]
      exact hv

theorem pjoin_absolute (p : PurePath) (s : String) (h : p.absolute = true) :
    (pjoin p s).absolute = true := by
  unfold pjoin
  by_cases ha : (parseStr s).absolute = true
  · rw [if_pos ha]; exact ha
  · rw [if_neg ha]; exact h

theorem resolveSource_absolute (ws : PurePath) (fs : List String) (s : String)
    (hws : ws.absolute = true) : (resolveSource ws fs s).absolute = true := by
  unfold resolveSource
  by_cases hex : fspath (pjoin ws s) ∈ fs
  · rw [if_pos hex]; exact pjoin_absolute ws s hws
  · rw [if_neg hex]; exact pjoin_absolute _ s (pjoin_absolute ws _ hws)

theorem take_len_append (l s : List α) : (l ++ s).take l.length = l := by
  induction l with
  | nil => rfl
  | cons x xs ih => simp [ih]

theorem mem_joinMap {f : α → List β} {b : β} {l : List α} :
    b ∈ joinMap f l ↔ ∃ a ∈ l, b ∈ f a := by
  induction l with
  | nil => simp [joinMap]
  | cons x xs ih =>
    simp only [joinMap, List.mem_append, ih, List.mem_cons]
    constructor
    · rintro (hb | ⟨a, ha, hb⟩)
      · exact ⟨x, Or.inl rfl, hb⟩
      · exact ⟨a, Or.inr ha, hb⟩
    · rintro ⟨a, (rfl | ha), hb⟩
      · exact Or.inl hb
      · exact Or.inr ⟨a, ha, hb⟩

/-! ### Claim C5 — one entry per well-formed argument vector

An argument vector is presented as a list of `Chunk`s; `scanLoop_chunks`
characterizes the whole scan chunk by chunk. -/

theorem scanLoop_chunks (ws : PurePath) (ee : String) (ob : PurePath) (cs : List Chunk)
    (hwf : ∀ c ∈ cs, c.wf) :
    ∀ (src out : Option String) (incs : List (String × String)),
    scanLoop INCLUDE_FLAG ws ee ob (joinMap Chunk.toArgs cs) src out incs =
      .ok (joinMap (chunkRewrite ws ee ob) cs,
        ⟨cs.foldl (updFlag "-c") src, cs.foldl (updFlag "-o") out,
         incs ++ joinMap (chunkIncs ee ob) cs⟩) := by
  induction cs with
  | nil => intro src out incs; simp [joinMap, scanLoop]
  | cons c rest ih =>
    intro src out incs
    have hwc : c.wf := hwf c (List.mem_cons_self _ _)
    have hwr : ∀ c ∈ rest, c.wf := fun c hm => hwf c (List.mem_cons_of_mem _ hm)
    cases c with
    | flagged f v =>
      have hwc' : f = "-c" ∨ f = "-o" ∨ f = "-I" ∨ f = "-iquote" ∨ f = "-isystem" := by
        simpa [Chunk.wf, ALL_FLAGS, INCLUDE_FLAG] using hwc
      have hIm1 : ("-I" : String) ∈ INCLUDE_FLAG := by decide
      have hIm2 : ("-iquote" : String) ∈ INCLUDE_FLAG := by decide
      have hIm3 : ("-isystem" : String) ∈ INCLUDE_FLAG := by decide
      rcases hwc' with rfl | rfl | rfl | rfl | rfl <;>
        simp [joinMap, Chunk.toArgs, scanLoop, ih hwr, chunkRewrite, chunkIncs, updFlag,
          hIm1, hIm2, hIm3]
    | plain a =>
      have hac : a ≠ "-c" := fun h => hwc (by rw [h]; decide)
      have hao : a ≠ "-o" := fun h => hwc (by rw [h]; decide)
      have haI : a ∉ INCLUDE_FLAG := fun h =>
        hwc (List.mem_cons_of_mem _ (List.mem_cons_of_mem _ h))
      have harg : joinMap Chunk.toArgs (Chunk.plain a :: rest) =
          a :: joinMap Chunk.toArgs rest := by simp [joinMap, Chunk.toArgs]
      rw [harg, scanLoop.eq_def]
      rcases hfs : fusedSplit INCLUDE_FLAG a with _ | fr <;>
        simp [hac, hao, haI, hfs, ih hwr, chunkRewrite, chunkIncs, updFlag, joinMap,
          Chunk.toArgs]

theorem foldl_updFlag_none (g : String) (cs : List Chunk)
    (h : ∀ c ∈ cs, isFlagChunk g c = false) (s : Option String) :
    cs.foldl (updFlag g) s = s := by
  induction cs generalizing s with
  | nil => rfl
  | cons c rest ih =>
    have hc := h c (List.mem_cons_self _ _)
    have hstep : updFlag g s c = s := by
      cases c with
      | flagged f v =>
        simp only [isFlagChunk, beq_eq_false_iff_ne, ne_eq] at hc
        simp [updFlag, hc]
      | plain a => rfl
    rw [List.foldl_cons, hstep, ih (fun c hm => h c (List.mem_cons_of_mem _ hm))]

theorem foldl_updFlag_single (g : String) (cs : List Chunk) (v : String)
    (h : cs.filter (isFlagChunk g) = [.flagged g v]) (s : Option String) :
    cs.foldl (updFlag g) s = some v := by
  induction cs generalizing s with
  | nil => simp [List.filter] at h
  | cons c rest ih =>
    cases hc : isFlagChunk g c with
    | false =>
      rw [List.filter_cons_of_neg (by simp [hc])] at h
      have hstep : updFlag g s c = s := by
        cases c with
        | flagged f v2 =>
          simp only [isFlagChunk, beq_eq_false_iff_ne, ne_eq] at hc
          simp [updFlag, hc]
        | plain a => rfl
      rw [List.foldl_cons, hstep, ih h]
    | true =>
      rw [List.filter_cons_of_pos (by simp [hc])] at h
      rcases List.cons_eq_cons.mp h with ⟨rfl, hrest⟩
      rw [List.foldl_cons]
      have hstep : updFlag g s (.flagged g v) = some v := by simp [updFlag]
      rw [hstep]
      refine foldl_updFlag_none g rest ?_ (some v)
      intro c hm
      by_contra hcon
      have : c ∈ rest.filter (isFlagChunk g) :=
        List.mem_filter.mpr ⟨hm, by simpa using hcon⟩
      rw [hrest] at this
      cases this

theorem fusedSplit_some {fo : List String} {a : String} {fr : String × String}
    (h : fusedSplit fo a = some fr) :
    fr.1 ∈ fo ∧ strStarts a fr.1 = true ∧ fr.2 = strDrop a (strLen fr.1) := by
  induction fo with
  | nil => simp [fusedSplit, firstSome?] at h
  | cons g rest ih =>
    simp only [fusedSplit, firstSome?] at h
    by_cases hs : strStarts a g = true
    · rw [if_pos hs] at h
      simp only [Option.some.injEq] at h
      subst h
      exact ⟨List.mem_cons_self _ _, hs, rfl⟩
    · rw [if_neg hs] at h
      obtain ⟨h1, h2, h3⟩ := ih h
      exact ⟨List.mem_cons_of_mem _ h1, h2, h3⟩

theorem strDrop_ne_empty_of_starts {a f : String} (hs : strStarts a f = true) (hne : a ≠ f) :
    strDrop a (strLen f) ≠ "" := by
  have htake : a.toList.take f.toList.length = f.toList := of_decide_eq_true hs
  apply str_ne_empty_of_data
  intro hd
  apply hne
  apply toList_inj
  have hsplit : a.toList = a.toList.take f.toList.length ++ a.toList.drop f.toList.length :=
    (List.take_append_drop _ _).symm
  have hdrop : a.toList.drop f.toList.length = [] := hd
  rw [hsplit, htake, hdrop, List.append_nil]

theorem chunkIncs_values_ne (ee : String) (ob : PurePath) (c : Chunk)
    (hw : c.wf) (hi : c.incOk) : ∀ fd ∈ chunkIncs ee ob c, fd.2 ≠ "" := by
  intro fd hm
  cases c with
  | flagged f v =>
    by_cases hc : f = "-c"
    · simp [chunkIncs, hc] at hm
    by_cases ho : f = "-o"
    · simp [chunkIncs, hc, ho] at hm
    have hI : f ∈ INCLUDE_FLAG := by
      have : f ∈ ALL_FLAGS := hw
      simpa [ALL_FLAGS, hc, ho] using this
    have hv : v ≠ "" := hi hI
    simp only [chunkIncs, if_neg hc, if_neg ho, List.mem_singleton] at hm
    subst hm
    exact rewrite_include_ne_empty ee ob hv
  | plain a =>
    rcases hfs : fusedSplit INCLUDE_FLAG a with _ | fr
    · simp [chunkIncs, hfs] at hm
    · simp only [chunkIncs, hfs, List.mem_singleton] at hm
      subst hm
      obtain ⟨h1, h2, h3⟩ := fusedSplit_some hfs
      have hane : a ≠ fr.1 := by
        intro he
        exact hw (by rw [he]; exact List.mem_cons_of_mem _ (List.mem_cons_of_mem _ h1))
      rw [h3]
      exact strDrop_ne_empty_of_starts h2 hane

theorem chunkRewrite_length (ws : PurePath) (ee : String) (ob : PurePath) (cs : List Chunk) :
    (joinMap (chunkRewrite ws ee ob) cs).length = (joinMap Chunk.toArgs cs).length := by
  induction cs with
  | nil => rfl
  | cons c rest ih =>
    simp only [joinMap, List.length_append, ih]
    congr 1
    cases c with
    | flagged f v =>
      simp only [chunkRewrite, Chunk.toArgs]
      split_ifs <;> rfl
    | plain a =>
      rcases hfs : fusedSplit INCLUDE_FLAG a with _ | fr <;>
        simp [chunkRewrite, Chunk.toArgs, hfs]

/-- C5: for every well-formed argument vector — a sequence of chunks whose
flagged chunks carry standalone flag tokens (include values nonempty), with
exactly one `-c` chunk (value `v`) and exactly one `-o` chunk (nonempty
value `w`) — the single left-to-right scan produces exactly one entry: its
`output` is `w` recorded verbatim, `output` and `file` are nonempty,
`directory` is the execution root, and position for position the scanned
prefix of its `arguments` is the chunkwise rewriting in which the argument
following `-c` became its workspace-absolute form and the argument following
`-o` is untouched. -/
theorem rewriter_single_entry (ws ob : PurePath) (fs : List String) (cs : List Chunk)
    (hws : ws.absolute = true)
    (hwf : ∀ c ∈ cs, c.wf) (hinc : ∀ c ∈ cs, c.incOk)
    (v w : String) (hw : w ≠ "")
    (hc : cs.filter (isFlagChunk "-c") = [.flagged "-c" v])
    (ho : cs.filter (isFlagChunk "-o") = [.flagged "-o" w]) :
    ∃ e, process_action INCLUDE_FLAG ⟨joinMap Chunk.toArgs cs⟩ ws ob fs = .ok e ∧
      e.output = w ∧ e.output ≠ "" ∧ e.file ≠ "" ∧
      e.directory = fspath (execrootOf ws) ∧
      e.arguments.take (joinMap Chunk.toArgs cs).length =
        joinMap (chunkRewrite ws (fspath (pjoin (execrootOf ws) "external")) ob) cs ∧
      chunkRewrite ws (fspath (pjoin (execrootOf ws) "external")) ob (.flagged "-c" v) =
        ["-c", fspath (pjoin ws v)] ∧
      chunkRewrite ws (fspath (pjoin (execrootOf ws) "external")) ob (.flagged "-o" w) =
        ["-o", w] := by
  have hscan := scanLoop_chunks ws (fspath (pjoin (execrootOf ws) "external")) ob cs hwf
    none none []
  rw [foldl_updFlag_single "-c" cs v hc, foldl_updFlag_single "-o" cs w ho] at hscan
  simp only [List.nil_append] at hscan
  have hne : ∀ fd ∈ joinMap (chunkIncs (fspath (pjoin (execrootOf ws) "external")) ob) cs,
      fd.2 ≠ "" := by
    intro fd hm
    obtain ⟨c, hcm, hfd⟩ := mem_joinMap.mp hm
    exact chunkIncs_values_ne _ ob c (hwf c hcm) (hinc c hcm) fd hfd
  have happ := appendLocal_spec ws _
    (joinMap (chunkRewrite ws (fspath (pjoin (execrootOf ws) "external")) ob) cs) hne
  refine ⟨⟨fspath (execrootOf ws), fspath (resolveSource ws fs v),
    joinMap (chunkRewrite ws (fspath (pjoin (execrootOf ws) "external")) ob) cs ++
      joinMap (includeDup ws)
        (joinMap (chunkIncs (fspath (pjoin (execrootOf ws) "external")) ob) cs), w⟩,
    ?_, rfl, hw, ?_, rfl, ?_, ?_, ?_⟩
  · simp only [process_action, hscan, happ]
  · exact fspath_ne_empty_of_abs (resolveSource_absolute ws fs v hws)
  · rw [← chunkRewrite_length ws (fspath (pjoin (execrootOf ws) "external")) ob cs]
    exact take_len_append _ _
  · simp [chunkRewrite]
  · simp [chunkRewrite]

/-- Witness for `rewriter_single_entry` at a concrete well-formed vector
`clang -c src/foo.cpp -o foo.o -I src/inc`. -/
theorem rewriter_single_entry_witness :
    ∃ e, process_action INCLUDE_FLAG
        ⟨joinMap Chunk.toArgs
          [.plain "clang", .flagged "-c" "src/foo.cpp", .flagged "-o" "foo.o",
           .flagged "-I" "src/inc"]⟩ (parseStr "/ws") (parseStr "/ob") ["/ws/src/foo.cpp"] =
        .ok e ∧
      e.output = "foo.o" ∧ e.output ≠ "" ∧ e.file ≠ "" ∧
      e.directory = fspath (execrootOf (parseStr "/ws")) ∧
      e.arguments.take (joinMap Chunk.toArgs
          [.plain "clang", .flagged "-c" "src/foo.cpp", .flagged "-o" "foo.o",
           .flagged "-I" "src/inc"]).length =
        joinMap (chunkRewrite (parseStr "/ws")
          (fspath (pjoin (execrootOf (parseStr "/ws")) "external")) (parseStr "/ob"))
          [.plain "clang", .flagged "-c" "src/foo.cpp", .flagged "-o" "foo.o",
           .flagged "-I" "src/inc"] ∧
      chunkRewrite (parseStr "/ws") (fspath (pjoin (execrootOf (parseStr "/ws")) "external"))
          (parseStr "/ob") (.flagged "-c" "src/foo.cpp") =
        ["-c", fspath (pjoin (parseStr "/ws") "src/foo.cpp")] ∧
      chunkRewrite (parseStr "/ws") (fspath (pjoin (execrootOf (parseStr "/ws")) "external"))
          (parseStr "/ob") (.flagged "-o" "foo.o") =
        ["-o", "foo.o"] :=
  rewriter_single_entry (parseStr "/ws") (parseStr "/ob") ["/ws/src/foo.cpp"]
    [.plain "clang", .flagged "-c" "src/foo.cpp", .flagged "-o" "foo.o",
     .flagged "-I" "src/inc"]
    rfl (by decide) (by decide) "src/foo.cpp" "foo.o" (by decide) rfl rfl

/-! ### Claim C9 — determinism of the Assembler

The only iteration in the source whose order is not fixed is the
`INCLUDE_FLAG` frozenset (hash-dependent across Python processes); entry
dictionaries iterate in insertion order.  The lemmas below show the flags
are mutually prefix-incompatible, so the scan — and with it the whole
pipeline — is invariant under any permutation of the frozenset's iteration
order, and the run is a pure function of its inputs. -/

theorem starts_take {s p : String} (h : strStarts s p = true) :
    s.toList.take p.toList.length = p.toList :=
  of_decide_eq_true h

theorem excl_Ii (s : String) (h1 : strStarts s "-I" = true)
    (h2 : strStarts s "-iquote" = true) : False := by
  have e1 := starts_take h1
  have e2 := starts_take h2
  rw [show ("-I" : String).toList = ['-', 'I'] from rfl] at e1
  rw [show ("-iquote" : String).toList = ['-', 'i', 'q', 'u', 'o', 't', 'e'] from rfl] at e2
  norm_num at e1 e2
  have e3 : s.data.take 2 = (s.data.take 7).take 2 := by
    rw [List.take_take]
    norm_num
  rw [e1, e2] at e3
  exact absurd e3 (by decide)

theorem excl_Is (s : String) (h1 : strStarts s "-I" = true)
    (h2 : strStarts s "-isystem" = true) : False := by
  have e1 := starts_take h1
  have e2 := starts_take h2
  rw [show ("-I" : String).toList = ['-', 'I'] from rfl] at e1
  rw [show ("-isystem" : String).toList = ['-', 'i', 's', 'y', 's', 't', 'e', 'm'] from rfl] at e2
  norm_num at e1 e2
  have e3 : s.data.take 2 = (s.data.take 8).take 2 := by
    rw [List.take_take]
    norm_num
  rw [e1, e2] at e3
  exact absurd e3 (by decide)

theorem excl_qs (s : String) (h1 : strStarts s "-iquote" = true)
    (h2 : strStarts s "-isystem" = true) : False := by
  have e1 := starts_take h1
  have e2 := starts_take h2
  rw [show ("-iquote" : String).toList = ['-', 'i', 'q', 'u', 'o', 't', 'e'] from rfl] at e1
  rw [show ("-isystem" : String).toList = ['-', 'i', 's', 'y', 's', 't', 'e', 'm'] from rfl] at e2
  norm_num at e1 e2
  have e3 : s.data.take 7 = (s.data.take 8).take 7 := by
    rw [List.take_take]
    norm_num
  rw [e1, e2] at e3
  exact absurd e3 (by decide)

theorem fusedTry_uniq (a : String) : ∀ f1 ∈ INCLUDE_FLAG, ∀ f2 ∈ INCLUDE_FLAG,
    (if strStarts a f1 then some (f1, strDrop a (strLen f1)) else none) ≠ none →
    (if strStarts a f2 then some (f2, strDrop a (strLen f2)) else none) ≠ none →
    f1 = f2 := by
  intro f1 h1 f2 h2 hn1 hn2
  have hs1 : strStarts a f1 = true := by
    by_contra hh
    rw [if_neg hh] at hn1
    exact hn1 rfl
  have hs2 : strStarts a f2 = true := by
    by_contra hh
    rw [if_neg hh] at hn2
    exact hn2 rfl
  fin_cases h1 <;> fin_cases h2 <;>
    first
      | rfl
      | exact (excl_Ii a hs1 hs2).elim
      | exact (excl_Ii a hs2 hs1).elim
      | exact (excl_Is a hs1 hs2).elim
      | exact (excl_Is a hs2 hs1).elim
      | exact (excl_qs a hs1 hs2).elim
      | exact (excl_qs a hs2 hs1).elim

theorem firstSome?_perm (f : α → Option β) {l l' : List α} (h : l.Perm l') :
    (∀ a ∈ l, ∀ b ∈ l, f a ≠ none → f b ≠ none → a = b) →
    firstSome? f l = firstSome? f l' := by
  induction h with
  | nil => intro _; rfl
  | cons x hp ih =>
    intro hu
    simp only [firstSome?]
    cases hfx : f x with
    | some y => rfl
    | none =>
      exact ih (fun a ha b hb => hu a (List.mem_cons_of_mem _ ha) b (List.mem_cons_of_mem _ hb))
  | swap x y l =>
    intro hu
    cases hfy : f y with
    | some b =>
      cases hfx : f x with
      | some c =>
        have hxy : x = y := hu x (by simp) y (by simp) (by rw [hfx]; simp) (by rw [hfy]; simp)
        subst hxy
        rfl
      | none => simp [firstSome?, hfx, hfy]
    | none =>
      cases hfx : f x with
      | some c => simp [firstSome?, hfx, hfy]
      | none => simp [firstSome?, hfx, hfy]
  | trans h1 h2 ih1 ih2 =>
    intro hu
    rw [ih1 hu]
    exact ih2 (fun a ha b hb => hu a (h1.mem_iff.mpr ha) b (h1.mem_iff.mpr hb))

theorem fusedSplit_order {o : List String} (h : o.Perm INCLUDE_FLAG) (a : String) :
    fusedSplit o a = fusedSplit INCLUDE_FLAG a := by
  unfold fusedSplit
  apply firstSome?_perm _ h
  intro f1 h1 f2 h2 hn1 hn2
  exact fusedTry_uniq a f1 (h.mem_iff.mp h1) f2 (h.mem_iff.mp h2) hn1 hn2

theorem scanLoop_cons_c (fo : List String) (ws : PurePath) (ee : String) (ob : PurePath)
    (v : String) (rest2 : List String) (src out : Option String)
    (incs : List (String × String)) :
    scanLoop fo ws ee ob ("-c" :: v :: rest2) src out incs =
      match scanLoop fo ws ee ob rest2 (some v) out incs with
      | .error e => .error e
      | .ok (tl, acc) => .ok ("-c" :: fspath (pjoin ws v) :: tl, acc) := rfl

theorem scanLoop_cons_o (fo : List String) (ws : PurePath) (ee : String) (ob : PurePath)
    (v : String) (rest2 : List String) (src out : Option String)
    (incs : List (String × String)) :
    scanLoop fo ws ee ob ("-o" :: v :: rest2) src out incs =
      match scanLoop fo ws ee ob rest2 src (some v) incs with
      | .error e => .error e
      | .ok (tl, acc) => .ok ("-o" :: v :: tl, acc) := rfl

theorem scanLoop_cons_flag (fo : List String) (ws : PurePath) (ee : String) (ob : PurePath)
    (a v : String) (rest2 : List String) (src out : Option String)
    (incs : List (String × String)) (hc : a ≠ "-c") (ho : a ≠ "-o") (hI : a ∈ fo) :
    scanLoop fo ws ee ob (a :: v :: rest2) src out incs =
      match scanLoop fo ws ee ob rest2 src out (incs ++ [(a, rewrite_include v ee ob)]) with
      | .error e => .error e
      | .ok (tl, acc) => .ok (a :: rewrite_include v ee ob :: tl, acc) := by
  rw [scanLoop.eq_def]
  simp [hc, ho, hI]

theorem scanLoop_cons_other (fo : List String) (ws : PurePath) (ee : String) (ob : PurePath)
    (a : String) (rest : List String) (src out : Option String)
    (incs : List (String × String)) (hc : a ≠ "-c") (ho : a ≠ "-o") (hI : a ∉ fo) :
    scanLoop fo ws ee ob (a :: rest) src out incs =
      match fusedSplit fo a with
      | some fr =>
        match scanLoop fo ws ee ob rest src out (incs ++ [(fr.1, fr.2)]) with
        | .error e => .error e
        | .ok (tl, acc) => .ok ((fr.1 ++ rewrite_include fr.2 ee ob) :: tl, acc)
      | none =>
        match scanLoop fo ws ee ob rest src out incs with
        | .error e => .error e
        | .ok (tl, acc) => .ok (a :: tl, acc) := by
  rw [scanLoop.eq_def]
  simp [hc, ho, hI]

theorem scanLoop_last_flag (fo : List String) (ws : PurePath) (ee : String) (ob : PurePath)
    (a : String) (src out : Option String) (incs : List (String × String))
    (hmem : a = "-c" ∨ a = "-o" ∨ a ∈ fo) :
    scanLoop fo ws ee ob [a] src out incs = .error .indexError := by
  rw [scanLoop.eq_def]
  rcases hmem with rfl | rfl | h
  · simp
  · simp
  · by_cases hc : a = "-c"
    · simp [hc]
    by_cases ho : a = "-o"
    · simp [hc, ho]
    simp [hc, ho, h]

theorem scanLoop_order {o : List String} (h : o.Perm INCLUDE_FLAG) (ws : PurePath)
    (ee : String) (ob : PurePath) :
    ∀ (args : List String) (src out : Option String) (incs : List (String × String)),
      scanLoop o ws ee ob args src out incs =
        scanLoop INCLUDE_FLAG ws ee ob args src out incs := by
  have main : ∀ n (args : List String), args.length ≤ n → ∀ src out incs,
      scanLoop o ws ee ob args src out incs =
        scanLoop INCLUDE_FLAG ws ee ob args src out incs := by
    intro n
    induction n with
    | zero =>
      intro args hlen src out incs
      have hnil : args = [] := List.length_eq_zero.mp (Nat.le_zero.mp hlen)
      subst hnil
      rfl
    | succ n ih =>
      intro args hlen src out incs
      match args with
      | [] => rfl
      | a :: rest =>
        by_cases hc : a = "-c"
        · subst hc
          cases rest with
          | nil => rfl
          | cons v rest2 =>
            rw [scanLoop_cons_c, scanLoop_cons_c, ih rest2 (by simp at hlen ⊢; omega)]
        by_cases ho2 : a = "-o"
        · subst ho2
          cases rest with
          | nil => rfl
          | cons v rest2 =>
            rw [scanLoop_cons_o, scanLoop_cons_o, ih rest2 (by simp at hlen ⊢; omega)]
        by_cases hI : a ∈ INCLUDE_FLAG
        · have hIo : a ∈ o := h.mem_iff.mpr hI
          cases rest with
          | nil =>
            rw [scanLoop_last_flag o ws ee ob a src out incs (Or.inr (Or.inr hIo)),
              scanLoop_last_flag INCLUDE_FLAG ws ee ob a src out incs (Or.inr (Or.inr hI))]
          | cons v rest2 =>
            rw [scanLoop_cons_flag o ws ee ob a v rest2 src out incs hc ho2 hIo,
              scanLoop_cons_flag INCLUDE_FLAG ws ee ob a v rest2 src out incs hc ho2 hI,
              ih rest2 (by simp at hlen ⊢; omega)]
        · have hIo : a ∉ o := fun hm => hI (h.mem_iff.mp hm)
          have hfso := fusedSplit_order h a
          rcases hfs : fusedSplit INCLUDE_FLAG a with _ | fr <;>
            simp only [scanLoop_cons_other o ws ee ob a rest src out incs hc ho2 hIo,
              scanLoop_cons_other INCLUDE_FLAG ws ee ob a rest src out incs hc ho2 hI,
              hfso, hfs, ih rest (by simp at hlen ⊢; omega)]
  exact fun args => main args.length args (Nat.le_refl _)

theorem process_action_order {o : List String} (h : o.Perm INCLUDE_FLAG) (act : BAction)
    (ws ob : PurePath) (fs : List String) :
    process_action o act ws ob fs = process_action INCLUDE_FLAG act ws ob fs := by
  simp only [process_action]
  rw [scanLoop_order h ws (fspath (pjoin (execrootOf ws) "external")) ob]

theorem mapExcept_congr (f g : α → Except ε β) (l : List α) (h : ∀ a ∈ l, f a = g a) :
    mapExcept f l = mapExcept g l := by
  induction l with
  | nil => rfl
  | cons x xs ih =>
    simp only [mapExcept, h x (List.mem_cons_self _ _),
      ih (fun a ha => h a (List.mem_cons_of_mem _ ha))]

theorem mainModel_order {o : List String} (h : o.Perm INCLUDE_FLAG) (ws ob : PurePath)
    (fs : List String) (rc : Int) (af : Option (List BAction)) :
    mainModel o ws ob fs rc af = mainModel INCLUDE_FLAG ws ob fs rc af := by
  have ha : assemble o ws ob fs (af.getD []) = assemble INCLUDE_FLAG ws ob fs (af.getD []) := by
    unfold assemble
    rw [mapExcept_congr (fun a => process_action o a ws ob fs)
      (fun a => process_action INCLUDE_FLAG a ws ob fs) (af.getD [])
      (fun a _ => process_action_order h a ws ob fs)]
  unfold mainModel
  rw [ha]

/-- C9: for a fixed action graph, roots and on-disk file set, the run is a
pure function of its inputs and does not depend on the one nondeterministic
iteration order in the source — the hash-dependent order of the
`INCLUDE_FLAG` frozenset: any two iteration orders of the flag set make
`main` produce the same outcome, including byte-identical serialized output,
and the entry-dictionary iteration the Entry Synthesizer uses is insertion
order by construction. -/
theorem assembler_deterministic (o1 o2 : List String) (h1 : o1.Perm INCLUDE_FLAG)
    (h2 : o2.Perm INCLUDE_FLAG) (ws ob : PurePath) (fs : List String) (rc : Int)
    (af : Option (List BAction)) :
    mainModel o1 ws ob fs rc af = mainModel o2 ws ob fs rc af :=
  (mainModel_order h1 ws ob fs rc af).trans (mainModel_order h2 ws ob fs rc af).symm

/-- Witness for `assembler_deterministic`: a transposed frozenset order
against the canonical one on a concrete run that exercises a fused include
and template-file synthesis. -/
theorem assembler_deterministic_witness :
    mainModel ["-iquote", "-I", "-isystem"] (parseStr "/ws") (parseStr "/ob")
        ["/ws/src/foo.cpp", "/ws/src/foo.inl", "/ws/src/foo.hpp"] 0
        (some [⟨["-c", "src/foo.cpp", "-o", "foo.o", "-Isrc/inc"]⟩]) =
      mainModel INCLUDE_FLAG (parseStr "/ws") (parseStr "/ob")
        ["/ws/src/foo.cpp", "/ws/src/foo.inl", "/ws/src/foo.hpp"] 0
        (some [⟨["-c", "src/foo.cpp", "-o", "foo.o", "-Isrc/inc"]⟩]) :=
  assembler_deterministic ["-iquote", "-I", "-isystem"] INCLUDE_FLAG
    (List.Perm.swap "-I" "-iquote" ["-isystem"]) (List.Perm.refl _)
    (parseStr "/ws") (parseStr "/ob")
    ["/ws/src/foo.cpp", "/ws/src/foo.inl", "/ws/src/foo.hpp"] 0
    (some [⟨["-c", "src/foo.cpp", "-o", "foo.o", "-Isrc/inc"]⟩])

end CompileCommands
